import Mathlib

/-!
Verification of the Hand-TeX sample-synthesis pipeline
(`src/training/data_loader.py`, `src/handtex/utils.py`,
`src/tests/test_symbol_metadata_sanity.py`) against its specification.

The Python code is shallowly embedded: pure fragments become Lean
functions over `List`, `ℚ`, `ℝ`; global RNG state (Python `random`,
`numpy.random`) is threaded explicitly as stream values; SQLite reads are
modelled as the lists of rows they return, in storage (rowid = primary
key) order, which is the order the table scan in `load_primary_keys`
produces.
-/

namespace HandTex

/--
The train/validation split performed inside `load_primary_keys`
(src/training/data_loader.py, lines 119-148).  `samples` is the list of
primary keys returned by the database for one symbol-key set, in storage
primary-key order.  A single-sample source is returned whole to both
views; otherwise validation takes the first `ceil(n * validation_split)`
keys and training drops them.  The Python `assert validation_split < 0.5`
is carried as a hypothesis of the theorems below.
-/
def load_primary_keys (samples : List Nat) (validation_split : ℚ) (train : Bool) :
    List Nat :=
  if samples.length = 1 then samples
  else
    let split_idx : Nat := (⌈(samples.length : ℚ) * validation_split⌉).toNat
    if train then samples.drop split_idx else samples.take split_idx

/-- A symmetry step: rotation (when `rotation = true`) or reflection, by an
angle in degrees (`handtex.structures.Transformation`). -/
structure Transformation where
  rotation : Bool
  angle : ℚ
deriving DecidableEq

/-- A negation overlay recipe (`handtex.structures.Negation`): uniform slash
scale, slash rotation angle, and x/y offsets. -/
structure Negation where
  scale_factor : ℚ
  vert_angle : ℚ
  x_offset : ℚ
  y_offset : ℚ
deriving DecidableEq

/-- One entry of `StrokeDataset.primary_keys`: a sample primary key, the
transformation chain, the optional negation with its paired slash sample
key, and the optional augmentation seed. -/
structure DerivationRecord where
  pk : Nat
  transforms : List Transformation
  neg : Option Negation
  slash_id : Nat
  seed : Option Nat
deriving DecidableEq

/-- Default record, used only as the `getD` fallback below. -/
def blankRecord : DerivationRecord := ⟨0, [], none, 0, none⟩

/-- One derivation path `(current_key, transformations, negation)` as
yielded by `symbol_data.all_paths_to_symbol`. -/
abbrev SymbolPath := String × List Transformation × Option Negation

/-- Pair each sample key with the next element of the slash cycle:
models `zip(load_primary_keys(current_key), negation_cycle)` where `pos`
draws have already been taken from the cycle over the nonempty list
`slash` (`itertools.cycle` yields index `pos % slash.length` next). -/
def zipSlash (slash : List Nat) : List Nat → Nat → List (Nat × Nat)
  | [], _ => []
  | s :: ss, pos =>
    (s, slash.getD (pos % slash.length) 0) :: zipSlash slash ss (pos + 1)

/-- Records contributed to `samples` by the derivation-path loop of
`StrokeDataset.__init__` (src/training/data_loader.py, lines 175-182) for
the given path list, with the slash cycle currently at position `pos`.
An empty slash list models `cycle([])`, which is immediately exhausted,
so `zip` then yields nothing. -/
def emit (samplesOf : String → List Nat) (slash : List Nat) :
    List SymbolPath → Nat → List DerivationRecord
  | [], _ => []
  | p :: rest, pos =>
    (if slash.isEmpty then []
     else (zipSlash slash (samplesOf p.1) pos).map
       (fun q => ⟨q.1, p.2.1, p.2.2, q.2, none⟩))
    ++ emit samplesOf slash rest (pos + (samplesOf p.1).length)

/-- Number of cycle draws the path loop consumes: the sum of the source
sample counts over the paths. -/
def emitAdvance (samplesOf : String → List Nat) (paths : List SymbolPath) : Nat :=
  (paths.map (fun p => (samplesOf p.1).length)).sum

/-- Sample source used by the concrete C2 inputs: one sample per key. -/
def cexSamples : String → List Nat := fun _ => [7]

/-- Key of a path without negation. -/
def keyA : String := "a"

/-- Key of a path with a negation. -/
def keyB : String := "b"

/-- Two derivation paths: first one without negation, then one with a
negation, each contributing a single sample. -/
def cexPaths : List SymbolPath :=
  [(keyA, [], none), (keyB, [], some ⟨1, 0, 0, 0⟩)]

/-- Global numpy RNG state: an infinite stream of uniform draws in `[0,1]`
(as rationals) together with the number of draws already consumed.
numpy's global generator is not seeded by `random.seed`, so this state is
an independent ambient input of any code that calls `np.random`. -/
structure NpRandom where
  stream : Nat → ℚ
  pos : Nat

/-- `np.random.uniform(lo, hi)`: consume one stream draw. -/
def np_uniform (lo hi : ℚ) (s : NpRandom) : ℚ × NpRandom :=
  (lo + (hi - lo) * s.stream s.pos, ⟨s.stream, s.pos + 1⟩)

/-- Modelled from the spec: `random.randint(0, 2)` immediately after
`random.seed(seed)` — Python's Mersenne Twister draw is a fixed,
deterministic function of the seed alone; only its determinism matters to
the claims, so it is modelled as `seed % 3`. -/
def seeded_randint3 (seed : Nat) : Nat := seed % 3

/-- Modelled from the spec: the geometric operator constructors of
`training.image_gen` (rotation_matrix, reflection_matrix, scale_matrix,
skew_matrix, translation_matrix) are not under src/; they are modelled as
symbolic operator descriptions, which is all the ordering and determinism
claims quantify over. -/
inductive TransMat where
  | rotation (angle : ℚ)
  | reflection (angle : ℚ)
  | scale (sx sy : ℚ)
  | skew (kx ky : ℚ)
  | translate (dx dy size : ℚ)
deriving DecidableEq

/-- Modelled from the spec: `ig.apply_transformations`, stroke-list
concatenation (`stroke_data += negation_stroke_data`) and
`sp.rescale_and_center_viewport` are not under src/; stroke data is
modelled as a symbolic rendering tree recording which operations were
applied, in which order, to which source sample. -/
inductive StrokeTree where
  | source (pk : Nat)
  | applied (mats : List TransMat) (t : StrokeTree)
  | concat (a b : StrokeTree)
  | rescaled (t : StrokeTree) (w h : Nat)
deriving DecidableEq

/-- The random augmentation branch of `load_transformed_strokes`
(src/training/data_loader.py, lines 270-282): it seeds Python's `random`
with the record seed and picks the operation from it, but draws every
jitter parameter from the numpy global RNG. -/
def jitter_mats (seed : Nat) (np : NpRandom) : TransMat × NpRandom :=
  let op := seeded_randint3 seed
  if op = 0 then
    let u := np_uniform (-5) 5 np
    (TransMat.rotation u.1, u.2)
  else if op = 1 then
    let u1 := np_uniform (9/10) 1 np
    let u2 := np_uniform (9/10) 1 u1.2
    (TransMat.scale u1.1 u2.1, u2.2)
  else
    let u1 := np_uniform (-1/10) (1/10) np
    let u2 := np_uniform (-1/10) (1/10) u1.2
    (TransMat.skew u1.1 u2.1, u2.2)

/-- The slash transformation chain built for a negation overlay
(src/training/data_loader.py, lines 291-295): uniform scale, rotation by
`vert_angle`, translation by the negated offsets over a 1000-unit
viewport. -/
def negation_mats (ng : Negation) : List TransMat :=
  [TransMat.scale ng.scale_factor ng.scale_factor,
   TransMat.rotation ng.vert_angle,
   TransMat.translate (-ng.x_offset) (-ng.y_offset) 1000]

/-- The base rendering of a record: the required transformation chain,
plus the seeded jitter when an augmentation seed is present, applied to
the source strokes (the `trans_mats` accumulation and the
`if trans_mats:` application, src/training/data_loader.py,
lines 261-286). -/
def base_rendering (rec : DerivationRecord) (np : NpRandom) : StrokeTree :=
  let base_mats := rec.transforms.map (fun t =>
    if t.rotation then TransMat.rotation t.angle else TransMat.reflection t.angle)
  let mats := match rec.seed with
    | none => base_mats
    | some sd => base_mats ++ [(jitter_mats sd np).1]
  if mats.isEmpty then StrokeTree.source rec.pk
  else StrokeTree.applied mats (StrokeTree.source rec.pk)

/-- `StrokeDataset.load_transformed_strokes`
(src/training/data_loader.py, lines 254-304), as a function of the
record and of the ambient numpy global RNG state. -/
def load_transformed_strokes (rec : DerivationRecord) (np : NpRandom) : StrokeTree :=
  let base_mats := rec.transforms.map (fun t =>
    if t.rotation then TransMat.rotation t.angle else TransMat.reflection t.angle)
  let mats := match rec.seed with
    | none => base_mats
    | some sd => base_mats ++ [(jitter_mats sd np).1]
  let stroke_data :=
    if mats.isEmpty then StrokeTree.source rec.pk
    else StrokeTree.applied mats (StrokeTree.source rec.pk)
  let stroke_data2 := match rec.neg with
    | none => stroke_data
    | some ng =>
        StrokeTree.concat stroke_data
          (StrokeTree.applied (negation_mats ng) (StrokeTree.source rec.slash_id))
  StrokeTree.rescaled stroke_data2 1000 1000

/-- A concrete negation recipe, used by the C7 witness. -/
def ngC7 : Negation := ⟨2, 45, 3, 4⟩

/-- A concrete negation-tagged record, used by the C7 witness. -/
def recC7 : DerivationRecord := ⟨5, [⟨true, 90⟩], some ngC7, 6, none⟩

/-- A concrete numpy RNG state whose stream is constantly zero. -/
def npZero : NpRandom := ⟨fun _ => 0, 0⟩

/-- A concrete numpy RNG state whose stream is constantly one half. -/
def npHalf : NpRandom := ⟨fun _ => 1/2, 0⟩

/-- `1.2 ** (1/20)`, so that the float expression
`power_base ** (-stretch * real_data_count)` of `augmentation_amount`
(power_base = 1.2, stretch = 0.05) is exactly `power_base_root ^ (-n)`:
the real-valued model of the source's float arithmetic. -/
noncomputable def power_base_root : ℝ := (6/5 : ℝ) ^ ((1 : ℝ)/20)

/-- `1.2 ** (-0.05 * n)`: the denominator's power term in
`augmentation_amount` (src/training/data_loader.py, line 53). -/
noncomputable def decay (n : ℕ) : ℝ := (power_base_root⁻¹) ^ n

/-- The real-valued balancing factor computed by `augmentation_amount`
(src/training/data_loader.py, lines 43-56) at the default
`max_factor = 10`, `min_factor = 0.2`, before the `int()` truncation. -/
noncomputable def augFactor (n : ℕ) : ℝ :=
  let max_factor : ℝ := 10
  let min_factor : ℝ := 1/5
  let nominator := -2 * (max_factor - min_factor)
  let denominator := 1 + decay n
  let offset := min_factor - nominator
  nominator / denominator + offset

/-- `augmentation_amount(real_data_count)` with default factors
(src/training/data_loader.py, line 57): Python's `int()` truncates toward
zero, and `factor * real_data_count` is nonnegative here (the factor
stays above `min_factor`), so it is the floor. -/
noncomputable def augmentation_amount (n : ℕ) : ℤ := ⌊augFactor n * n⌋

/-- Modelled from the spec: Python's global `random` Mersenne Twister as
consumed by `random.choice` / `random.randint` in the augmentation loop —
an infinite stream of naturals plus the number of draws already consumed.
`random.seed(random_seed)` at the top of `__init__` fixes the stream, so
a fixed stream models a fixed run seed. -/
structure PyRandom where
  ints : Nat → Nat
  pos : Nat

/-- `random.randint(lo, hi)` (inclusive bounds): consume one draw. -/
def py_randint (lo hi : Nat) (r : PyRandom) : Nat × PyRandom :=
  (lo + r.ints r.pos % (hi - lo + 1), ⟨r.ints, r.pos + 1⟩)

/-- `random.choice(samples)`: consume one draw to pick an index. -/
def py_choice (l : List DerivationRecord) (r : PyRandom) :
    DerivationRecord × PyRandom :=
  (l.getD (r.ints r.pos % l.length) blankRecord, ⟨r.ints, r.pos + 1⟩)

/-- One iteration of the augmentation loop
(src/training/data_loader.py, lines 199-203): pick a record from the
growing `samples` list, discard its (absent) seed, and append a copy
carrying a fresh random seed. -/
def augmentStep (samples : List DerivationRecord) (r : PyRandom) :
    List DerivationRecord × PyRandom :=
  let c := py_choice samples r
  let sd := py_randint 0 (2 ^ 32 - 1) c.2
  (samples ++ [⟨c.1.pk, c.1.transforms, c.1.neg, c.1.slash_id, some sd.1⟩], sd.2)

/-- The augmentation loop, `count` iterations of `augmentStep`. -/
def augmentLoop : Nat → List DerivationRecord → PyRandom →
    List DerivationRecord × PyRandom
  | 0, samples, r => (samples, r)
  | k + 1, samples, r =>
    augmentLoop k (augmentStep samples r).1 (augmentStep samples r).2

/-- The inputs of `StrokeDataset.__init__` that the per-leader loop
reads: the raw-sample store view (`samplesOf`, already split), the slash
group keys, the closure queries `pathsOf` (= `all_paths_to_symbol`) and
`ancestorsOf` (= `all_symbols_to_symbol`), the augmentation-count
function (the repository instantiates `amountFn` with
`fun n => (augmentation_amount n).toNat`, analysed separately above; the
claims below hold for every count function), the `random_augmentation`
flag and the optional `sample_limit`. -/
structure LoaderConfig where
  samplesOf : String → List Nat
  slash : List Nat
  pathsOf : String → List SymbolPath
  ancestorsOf : String → List String
  amountFn : Nat → Nat
  random_augmentation : Bool
  sample_limit : Option Nat

/-- The message of the `assert samples` failure
(src/training/data_loader.py, line 195). -/
def noSamplesMsg (key : String) : String :=
  "No samples found for symbol key: " ++ key

/-- The per-leader body of `StrokeDataset.__init__`
(src/training/data_loader.py, lines 154-206): emit the records of every
derivation path, abort construction when none were found, augment when
requested, then truncate to the sample limit. -/
def buildLeader (cfg : LoaderConfig) (key : String) (pos : Nat) (rng : PyRandom) :
    Except String (List DerivationRecord × PyRandom) :=
  let samples := emit cfg.samplesOf cfg.slash (cfg.pathsOf key) pos
  if samples.isEmpty then Except.error (noSamplesMsg key)
  else
    let real_data_count :=
      ((cfg.ancestorsOf key).map (fun a => (cfg.samplesOf a).length)).sum
    let step :=
      if cfg.random_augmentation then
        augmentLoop (cfg.amountFn real_data_count) samples rng
      else (samples, rng)
    let capped := match cfg.sample_limit with
      | none => step.1
      | some lim => step.1.take lim
    Except.ok (capped, step.2)

/-- The leader loop of `StrokeDataset.__init__`
(src/training/data_loader.py, lines 154-228): build each leader's
records, thread the shared slash-cycle position and the RNG, and extend
`primary_keys` and `symbol_keys`; the first leader without samples
aborts the whole construction. -/
def buildDataset (cfg : LoaderConfig) :
    List String → Nat → PyRandom →
      Except String (List DerivationRecord × List String)
  | [], _, _ => Except.ok ([], [])
  | key :: rest, pos, rng =>
    match buildLeader cfg key pos rng with
    | Except.error e => Except.error e
    | Except.ok s =>
      match buildDataset cfg rest
          (pos + emitAdvance cfg.samplesOf (cfg.pathsOf key)) s.2 with
      | Except.error e => Except.error e
      | Except.ok t => Except.ok (s.1 ++ t.1, List.replicate s.1.length key ++ t.2)

/-- Python `list.index`: index of the first occurrence. -/
def idxOf (s : String) : List String → Nat
  | [] => 0
  | k :: rest => if k = s then 0 else idxOf s rest + 1

/-- `StrokeDataset.range_for_symbol` (src/training/data_loader.py,
lines 246-252), returned as the (start, stop) pair of the Python
`range`: start is the first index of the symbol, stop is the length
minus the symbol's first index in the reversed list. -/
def range_for_symbol (symbol_keys : List String) (s : String) : Nat × Nat :=
  (idxOf s symbol_keys, symbol_keys.length - idxOf s symbol_keys.reverse)

/-- The empty string, used only as a `getD` fallback. -/
def emptyKey : String := ""

/-- `Grouped ks l`: `l` is a concatenation of per-leader blocks, one
(possibly empty) replicate block per leader, in leader order — the shape
of `symbol_keys` produced by the leader loop. -/
inductive Grouped : List String → List String → Prop
  | nil : Grouped [] []
  | cons (k : String) (n : Nat) (ks : List String) (t : List String) :
      Grouped ks t → Grouped (k :: ks) (List.replicate n k ++ t)

/-- A stream-zero Python RNG, used by concrete witnesses. -/
def rngZero : PyRandom := ⟨fun _ => 0, 0⟩

/-- Concrete configuration whose only leader has no samples at all. -/
def cfgC5 : LoaderConfig :=
  ⟨fun _ => [], [100], fun _ => [(keyA, [], none)], fun _ => [], fun _ => 0,
    false, none⟩

/-- Concrete configuration with one single-sample path, augmentation
count 2 and sample limit 2. -/
def cfgC6 : LoaderConfig :=
  ⟨fun _ => [7], [100], fun _ => [(keyA, [], none)], fun _ => [keyA],
    fun _ => 2, true, some 2⟩

/-- The concrete value `buildLeader cfgC6 keyA 0 rngZero` returns. -/
def buildLeaderC6 : List DerivationRecord × PyRandom :=
  ([⟨7, [], none, 100, none⟩, ⟨7, [], none, 100, some 0⟩], ⟨rngZero.ints, 4⟩)

/-- The message recorded for a failed type coercion (the
`RecoverableParseException` text of `load_dict_to_attrs_safely`, without
the dynamic exception detail). -/
def castFailMsg (attrName : String) : String :=
  "Failed to cast attribute " ++ attrName ++ " to the correct type."

/-- `load_dict_to_attrs_safely` (src/handtex/utils.py, lines 318-371).
The target object is a total assignment of attribute names to values of
type `α`; `type_info` lists the gathered annotated attributes, each with
its coercion `expected_type(value)` modelled as a partial function
(`none` = the constructor raised, caught by the `except Exception`);
`data` is the input dictionary; `skip_attrs` are skipped.  Returns the
updated object and the recoverable exception messages in encounter
order; the function is total — it never raises. -/
def load_dict_to_attrs_safely {α : Type} (obj : String → α)
    (type_info : List (String × (α → Option α)))
    (data : String → Option α) (skip_attrs : List String) :
    (String → α) × List String :=
  match type_info with
  | [] => (obj, [])
  | (attrName, coerce) :: rest =>
    if skip_attrs.contains attrName then
      load_dict_to_attrs_safely obj rest data skip_attrs
    else
      match data attrName with
      | none => load_dict_to_attrs_safely obj rest data skip_attrs
      | some v =>
        match coerce v with
        | some v2 =>
          load_dict_to_attrs_safely
            (fun k => if k = attrName then v2 else obj k) rest data skip_attrs
        | none =>
          let res := load_dict_to_attrs_safely obj rest data skip_attrs
          (res.1, castFailMsg attrName :: res.2)

/-- A coercion that always fails, used by the C9 witness. -/
def coerceFailC9 : Nat → Option Nat := fun _ => none

/-- A concrete attribute name, used by the C9 witness. -/
def attrA : String := "a"

/-- Boolean pairwise check: `r` holds for every ordered pair whose first
component occurs earlier in the list — the shape of the nested
`for i .. for j` assert loops of the sanity test. -/
def pairwiseB {α : Type} (r : α → α → Bool) : List α → Bool
  | [] => true
  | x :: xs => xs.all (r x) && pairwiseB r xs

/-- Python `set(a).issubset(set(b))` over symbol lines. -/
def subsetB (a b : List String) : Bool := a.all (fun x => b.contains x)

/-- Python set equality over symbol lines. -/
def setEqB (a b : List String) : Bool := subsetB a b && subsetB b a

/-- Python `not (set(a) & set(b))`: the two lines share no symbol. -/
def disjB (a b : List String) : Bool := a.all (fun x => !(b.contains x))

/-- The incremental per-line duplicate check of the test
(src/tests/test_symbol_metadata_sanity.py, lines 46-50): no symbol is
listed twice within one line. -/
def lineNodupB (l : List String) : Bool := pairwiseB (fun a b => !(a == b)) l

/-- All symbol keys of one similarity file in file order — the
`re.findall` over the whole text, which is the concatenation of the
whitespace-split lines. -/
def flatKeys (lines : List (List String)) : List String := lines.join

/-- `for key in key_set: keys.remove(key)`: remove the first occurrence
of each distinct key from the key list. -/
def removeKeySet (keySet : List String) (keys : List String) : List String :=
  keySet.foldl (fun acc k => acc.erase k) keys

/-- The per-file line checks of `test_similar_lists_disjunct`
(src/tests/test_symbol_metadata_sanity.py, lines 36-66): every line free
of internal duplicates, no line's symbol set equal to an earlier line's,
no line a subset of another, and all lines pairwise disjoint. -/
def fileLineChecks (lines : List (List String)) : Bool :=
  lines.all lineNodupB &&
  pairwiseB (fun a b => !(setEqB a b)) lines &&
  pairwiseB (fun a b => !(subsetB a b) && !(subsetB b a)) lines &&
  pairwiseB (fun a b => disjB a b && disjB b a) lines

/-- The per-file duplicate-key check (lines 70-77): after removing one
occurrence of each distinct key, no keys may remain. -/
def fileKeyCheck (lines : List (List String)) : Bool :=
  (removeKeySet (flatKeys lines).dedup (flatKeys lines)).isEmpty

/-- The cross-file key check (lines 79-84): each file's key set must be
disjoint from the accumulated key sets of the previous files. -/
def globalKeyCheck : List (List (List String)) → List String → Bool
  | [], _ => true
  | f :: rest, acc =>
    ((flatKeys f).dedup.all (fun k => !(acc.contains k))) &&
      globalKeyCheck rest (acc ++ (flatKeys f).dedup)

/-- `test_similar_lists_disjunct`
(src/tests/test_symbol_metadata_sanity.py, lines 28-84): the conjunction
of every asserted check over the declared similarity files, each file
given as its whitespace-split lines. -/
def test_similar_lists_disjunct (files : List (List (List String))) : Bool :=
  files.all fileLineChecks &&
  files.all fileKeyCheck &&
  globalKeyCheck files []

/-- The claim's acceptance conditions as plain propositions: no symbol
listed twice within one group line, no two lines of a file identical (as
sets) or subsets of each other, no two lines of a file sharing a symbol,
no key occurring twice within one file, and no key appearing in two
different files. -/
def SimilarityFilesValid (files : List (List (List String))) : Prop :=
  (∀ f ∈ files, ∀ line ∈ f, line.Nodup) ∧
  (∀ f ∈ files, List.Pairwise (fun a b =>
    ¬ ((∀ x ∈ a, x ∈ b) ∧ (∀ x ∈ b, x ∈ a)) ∧
    ¬ (∀ x ∈ a, x ∈ b) ∧ ¬ (∀ x ∈ b, x ∈ a)) f) ∧
  (∀ f ∈ files, List.Pairwise (fun a b => ∀ x ∈ a, x ∉ b) f) ∧
  (∀ f ∈ files, (flatKeys f).Nodup) ∧
  List.Pairwise (fun f g => ∀ k ∈ flatKeys f, k ∉ flatKeys g) files

end HandTex

namespace HandTex

theorem ceil_split_le (n : Nat) (v : ℚ) (hv0 : 0 ≤ v) (hv : v < 1/2) (hn : 1 ≤ n) :
    (⌈(n : ℚ) * v⌉).toNat ≤ n := by
  have h1 : (n : ℚ) * v ≤ (n : ℚ) := by
    calc (n : ℚ) * v ≤ (n : ℚ) * 1 := by
          apply mul_le_mul_of_nonneg_left (le_of_lt (lt_trans hv (by norm_num)))
          exact_mod_cast Nat.zero_le n
      _ = (n : ℚ) := mul_one _
  have h2 : ⌈(n : ℚ) * v⌉ ≤ (n : ℤ) := by
    calc ⌈(n : ℚ) * v⌉ ≤ ⌈(n : ℚ)⌉ := Int.ceil_le_ceil h1
      _ = (n : ℤ) := Int.ceil_natCast n
  omega

/--
C1.  For a source symbol with `n ≥ 1` raw samples in storage primary-key
order and `0 ≤ validation_split < 0.5`, the two views of
`load_primary_keys` are complementary: for `n = 1` both views return the
same single sample, and for `n ≥ 2` validation returns exactly the first
`ceil(n * v)` samples, training returns exactly the remaining
`n - ceil(n * v)`, the views are disjoint, and their concatenation is the
full sample list.
-/
theorem c1_validation_split (samples : List Nat) (v : ℚ)
    (hnd : samples.Nodup) (hn : 1 ≤ samples.length)
    (hv0 : 0 ≤ v) (hv : v < 1/2) :
    (samples.length = 1 →
      load_primary_keys samples v true = samples ∧
      load_primary_keys samples v false = samples) ∧
    (2 ≤ samples.length →
      load_primary_keys samples v false
        = samples.take (⌈(samples.length : ℚ) * v⌉).toNat ∧
      load_primary_keys samples v true
        = samples.drop (⌈(samples.length : ℚ) * v⌉).toNat ∧
      (load_primary_keys samples v false).length
        = (⌈(samples.length : ℚ) * v⌉).toNat ∧
      (load_primary_keys samples v true).length
        = samples.length - (⌈(samples.length : ℚ) * v⌉).toNat ∧
      (load_primary_keys samples v false).Disjoint (load_primary_keys samples v true) ∧
      load_primary_keys samples v false ++ load_primary_keys samples v true
        = samples) := by
  constructor
  · intro h1
    simp [load_primary_keys, h1]
  · intro h2
    have hne : ¬ samples.length = 1 := by omega
    have hle : (⌈(samples.length : ℚ) * v⌉).toNat ≤ samples.length :=
      ceil_split_le samples.length v hv0 hv hn
    refine ⟨by simp [load_primary_keys, hne], by simp [load_primary_keys, hne],
      ?_, ?_, ?_, ?_⟩
    · simp [load_primary_keys, hne]
      omega
    · simp [load_primary_keys, hne]
    · simp only [load_primary_keys, hne, if_false, if_true]
      exact List.disjoint_take_drop hnd (le_refl _)
    · simp only [load_primary_keys, hne, if_false, if_true]
      exact List.take_append_drop _ _

/-- Witness for C1 at a concrete input: three samples, split 1/5. -/
theorem c1_validation_split_witness :
    load_primary_keys [10, 20, 30] (1/5) false ++ load_primary_keys [10, 20, 30] (1/5) true
      = [10, 20, 30] :=
  ((c1_validation_split [10, 20, 30] (1/5) (by decide) (by decide)
      (by norm_num) (by norm_num)).2 (by decide)).2.2.2.2.2

theorem zipSlash_length (slash : List Nat) (ss : List Nat) (pos : Nat) :
    (zipSlash slash ss pos).length = ss.length := by
  induction ss generalizing pos with
  | nil => rfl
  | cons s ss ih => simp [zipSlash, ih]

theorem zipSlash_getD (slash : List Nat) (ss : List Nat) (pos i : Nat)
    (h : i < ss.length) :
    (zipSlash slash ss pos).getD i (0, 0)
      = (ss.getD i 0, slash.getD ((pos + i) % slash.length) 0) := by
  induction ss generalizing pos i with
  | nil => simp at h
  | cons s ss ih =>
    cases i with
    | zero => simp [zipSlash]
    | succ j =>
      have hj : j < ss.length := by simpa using h
      have harg : pos + 1 + j = pos + (j + 1) := by omega
      have hstep := ih (pos + 1) j hj
      rw [harg] at hstep
      simp only [zipSlash, List.getD_cons_succ]
      rw [hstep]

theorem emit_cons (samplesOf : String → List Nat) (slash : List Nat)
    (p : SymbolPath) (rest : List SymbolPath) (pos : Nat) (h : ¬ slash.isEmpty) :
    emit samplesOf slash (p :: rest) pos
      = (zipSlash slash (samplesOf p.1) pos).map
          (fun q => (⟨q.1, p.2.1, p.2.2, q.2, none⟩ : DerivationRecord))
        ++ emit samplesOf slash rest (pos + (samplesOf p.1).length) := by
  simp [emit, h]

theorem emit_length (samplesOf : String → List Nat) (slash : List Nat)
    (paths : List SymbolPath) (pos : Nat) (h : ¬ slash.isEmpty) :
    (emit samplesOf slash paths pos).length = emitAdvance samplesOf paths := by
  induction paths generalizing pos with
  | nil => rfl
  | cons p rest ih =>
    rw [emit_cons samplesOf slash p rest pos h]
    simp [emitAdvance, zipSlash_length, ih pos, ih (pos + (samplesOf p.1).length),
      List.map_cons, List.sum_cons]

theorem emit_slash_id (samplesOf : String → List Nat) (slash : List Nat)
    (paths : List SymbolPath) (h : ¬ slash.isEmpty) :
    ∀ pos i, i < (emit samplesOf slash paths pos).length →
      ((emit samplesOf slash paths pos).getD i blankRecord).slash_id
        = slash.getD ((pos + i) % slash.length) 0 := by
  induction paths with
  | nil => intro pos i hi; simp [emit] at hi
  | cons p rest ih =>
    intro pos i hi
    rw [emit_cons samplesOf slash p rest pos h] at hi ⊢
    have hlen : ((zipSlash slash (samplesOf p.1) pos).map
        (fun q => (⟨q.1, p.2.1, p.2.2, q.2, none⟩ : DerivationRecord))).length
        = (samplesOf p.1).length := by
      simp [zipSlash_length]
    by_cases hcase : i < (samplesOf p.1).length
    · rw [List.getD_eq_getD_get?, List.get?_append (by rw [hlen]; exact hcase),
        List.get?_map]
      have hz : i < (zipSlash slash (samplesOf p.1) pos).length := by
        rw [zipSlash_length]; exact hcase
      have hz2 : (zipSlash slash (samplesOf p.1) pos).get? i
          = some ((zipSlash slash (samplesOf p.1) pos).getD i (0, 0)) := by
        rw [List.getD_eq_getD_get?]
        cases hq : (zipSlash slash (samplesOf p.1) pos).get? i with
        | none => exact absurd (List.get?_eq_none.mp hq) (by omega)
        | some q => rfl
      rw [hz2, zipSlash_getD slash _ pos i hcase]
      rfl
    · have hge : (samplesOf p.1).length ≤ i := by omega
      rw [List.getD_eq_getD_get?, List.get?_append_right (by rw [hlen]; exact hge),
        hlen, ← List.getD_eq_getD_get?]
      have hi2 : i - (samplesOf p.1).length
          < (emit samplesOf slash rest (pos + (samplesOf p.1).length)).length := by
        rw [List.length_append, hlen] at hi
        omega
      rw [ih (pos + (samplesOf p.1).length) (i - (samplesOf p.1).length) hi2]
      have harg : pos + (samplesOf p.1).length + (i - (samplesOf p.1).length)
          = pos + i := by omega
      rw [harg]

/--
C2 (counterexample).  With two slash keys `[100, 200]` and two derivation
paths of one sample each — the first not negation-tagged, the second
negation-tagged — the code pairs the 0-th negation-tagged record with
slash key `200` (cycle index 1), not with the key at index `0 mod 2` as
the claim states, because every emitted record consumes one element of
the shared cycle, negation-tagged or not.
-/
theorem c2_roundrobin_counterexample :
    ¬ ((((emit cexSamples [100, 200] cexPaths 0).filter
          (fun r => r.neg.isSome)).getD 0 blankRecord).slash_id
        = [100, 200].getD (0 % 2) 0) := by decide

/--
C2 (amended).  With `k ≥ 1` slash keys in their fixed order, the i-th
emitted derivation record overall — counting every record produced by the
derivation-path loop in emission order, 0-indexed, negation-tagged or
not — carries the slash sample key at index `i mod k`; slash keys are
consumed cyclically without repetition until the group is exhausted.
-/
theorem c2_roundrobin_amended (samplesOf : String → List Nat) (slash : List Nat)
    (paths : List SymbolPath) (h : ¬ slash.isEmpty) (i : Nat)
    (hi : i < (emit samplesOf slash paths 0).length) :
    ((emit samplesOf slash paths 0).getD i blankRecord).slash_id
      = slash.getD (i % slash.length) 0 := by
  have := emit_slash_id samplesOf slash paths h 0 i hi
  simpa using this

/-- Witness for the amended C2 at a concrete input: the second emitted
record (the negation-tagged one) carries slash key index `1 mod 2`. -/
theorem c2_roundrobin_amended_witness :
    ((emit cexSamples [100, 200] cexPaths 0).getD 1 blankRecord).slash_id
      = [100, 200].getD (1 % 2) 0 :=
  c2_roundrobin_amended cexSamples [100, 200] cexPaths (by decide) 1 (by decide)

/--
C3 (code evaluated at the failing input).  For a record that carries an
augmentation seed, the transformed strokes are not a function of the
record alone: evaluating `load_transformed_strokes` on the same record
(pk 1, no transforms, no negation, seed 0) under two different numpy
global RNG states yields different jitter parameters, because the jitter
parameters are drawn from `np.random.uniform`, which `random.seed` does
not seed.
-/
theorem c3_jitter_env_dependent :
    load_transformed_strokes ⟨1, [], none, 0, some 0⟩ npZero
      ≠ load_transformed_strokes ⟨1, [], none, 0, some 0⟩ npHalf := by
  norm_num [load_transformed_strokes, jitter_mats, np_uniform, seeded_randint3,
    npZero, npHalf]

/--
C7.  `load_transformed_strokes` applies operations in exactly the claimed
order: first the record's base transformation chain (plus the optional
seeded jitter) to the source strokes, then the negation overlay — the
slash strokes scaled uniformly by `scale_factor`, rotated by
`vert_angle`, translated by the `x_offset`/`y_offset` recipe — appended
onto the base rendering as `source_rendering + transformed_slash_rendering`,
and finally the 1000x1000 viewport rescale/center.
-/
theorem c7_transform_order (rec : DerivationRecord) (np : NpRandom) (ng : Negation)
    (hneg : rec.neg = some ng) :
    load_transformed_strokes rec np
      = StrokeTree.rescaled
          (StrokeTree.concat (base_rendering rec np)
            (StrokeTree.applied (negation_mats ng) (StrokeTree.source rec.slash_id)))
          1000 1000 := by
  simp only [load_transformed_strokes, base_rendering, hneg]

/-- Witness for C7 at a concrete negation-tagged record. -/
theorem c7_transform_order_witness :
    load_transformed_strokes recC7 npZero
      = StrokeTree.rescaled
          (StrokeTree.concat (base_rendering recC7 npZero)
            (StrokeTree.applied (negation_mats ngC7) (StrokeTree.source recC7.slash_id)))
          1000 1000 :=
  c7_transform_order recC7 npZero ngC7 rfl

theorem power_base_root_pos : 0 < power_base_root :=
  Real.rpow_pos_of_pos (by norm_num) _

theorem power_base_root_pow : power_base_root ^ (20 : ℕ) = 6/5 := by
  rw [power_base_root, ← Real.rpow_natCast ((6/5 : ℝ) ^ ((1:ℝ)/20)) 20,
    ← Real.rpow_mul (by norm_num)]
  norm_num

theorem one_lt_power_base_root : 1 < power_base_root := by
  by_contra hle
  push_neg at hle
  have h1 : power_base_root ^ (20 : ℕ) ≤ 1 :=
    pow_le_one₀ (le_of_lt power_base_root_pos) hle
  rw [power_base_root_pow] at h1
  norm_num at h1

theorem inv_pbr_nonneg : 0 ≤ power_base_root⁻¹ :=
  inv_nonneg.mpr (le_of_lt power_base_root_pos)

theorem inv_pbr_lt_one : power_base_root⁻¹ < 1 :=
  inv_lt_one_of_one_lt₀ one_lt_power_base_root

theorem decay_pos (n : ℕ) : 0 < decay n :=
  pow_pos (inv_pos.mpr power_base_root_pos) n

theorem decay_le_one (n : ℕ) : decay n ≤ 1 :=
  pow_le_one₀ inv_pbr_nonneg (le_of_lt inv_pbr_lt_one)

theorem decay_lt_one (n : ℕ) (hn : 1 ≤ n) : decay n < 1 :=
  pow_lt_one₀ inv_pbr_nonneg inv_pbr_lt_one (by omega)

theorem decay_antitone (m n : ℕ) (h : m ≤ n) : decay n ≤ decay m :=
  pow_le_pow_of_le_one inv_pbr_nonneg (le_of_lt inv_pbr_lt_one) h

theorem augFactor_eq (n : ℕ) : augFactor n = 99/5 - (98/5) / (1 + decay n) := by
  have hd : (0:ℝ) < 1 + decay n := by have := decay_pos n; linarith
  rw [augFactor]
  norm_num
  field_simp
  ring

theorem augFactor_le_ten (n : ℕ) : augFactor n ≤ 10 := by
  rw [augFactor_eq]
  have hd : (0:ℝ) < 1 + decay n := by have := decay_pos n; linarith
  have hle : (1:ℝ) + decay n ≤ 2 := by have := decay_le_one n; linarith
  have h1 : (98/5 : ℝ)/2 ≤ (98/5)/(1 + decay n) :=
    div_le_div_of_nonneg_left (by norm_num) hd hle
  linarith

theorem augFactor_gt (n : ℕ) : 1/5 < augFactor n := by
  rw [augFactor_eq]
  have hq := decay_pos n
  have h1 : (98/5 : ℝ)/(1 + decay n) < (98/5)/1 :=
    div_lt_div_of_pos_left (by norm_num) (by norm_num) (by linarith)
  norm_num at h1
  linarith

theorem augFactor_antitone (m n : ℕ) (h : m ≤ n) : augFactor n ≤ augFactor m := by
  rw [augFactor_eq, augFactor_eq]
  have hd : decay n ≤ decay m := decay_antitone m n h
  have hdn : (0:ℝ) < 1 + decay n := by have := decay_pos n; linarith
  have h1 : (98/5 : ℝ)/(1 + decay m) ≤ (98/5)/(1 + decay n) :=
    div_le_div_of_nonneg_left (by norm_num) hdn (by linarith)
  linarith

theorem decay_one_ge : (5/6 : ℝ) ≤ decay 1 := by
  have h20 : power_base_root ^ (20:ℕ) ≤ (6/5 : ℝ) ^ (20:ℕ) := by
    rw [power_base_root_pow]
    exact le_self_pow₀ (by norm_num) (by norm_num)
  have hb : power_base_root ≤ 6/5 :=
    le_of_pow_le_pow_left₀ (by norm_num) (by norm_num) h20
  have : (6/5 : ℝ)⁻¹ ≤ power_base_root⁻¹ :=
    inv_anti₀ power_base_root_pos hb
  rw [decay, pow_one]
  calc (5/6 : ℝ) = (6/5 : ℝ)⁻¹ := by norm_num
    _ ≤ power_base_root⁻¹ := this

theorem decay_two_ge : (93/103 : ℝ) ≤ decay 2 := by
  have hsq : power_base_root ^ (2:ℕ) ≤ 103/93 := by
    apply le_of_pow_le_pow_left₀ (n := 10) (by norm_num) (by norm_num)
    rw [← pow_mul, power_base_root_pow]
    norm_num
  have hpos : (0:ℝ) < power_base_root ^ (2:ℕ) := pow_pos power_base_root_pos 2
  have hinv : (103/93 : ℝ)⁻¹ ≤ (power_base_root ^ (2:ℕ))⁻¹ :=
    inv_anti₀ hpos hsq
  rw [decay, inv_pow]
  calc (93/103 : ℝ) = (103/93 : ℝ)⁻¹ := by norm_num
    _ ≤ (power_base_root ^ (2:ℕ))⁻¹ := hinv

theorem decay_2001_le : decay 2001 ≤ 1/50000 := by
  have h1 : decay 2001 ≤ decay 2000 := decay_antitone 2000 2001 (by omega)
  have h2 : decay 2000 = (5/6 : ℝ) ^ (100:ℕ) := by
    rw [decay]
    have : (2000 : ℕ) = 20 * 100 := by norm_num
    rw [this, pow_mul, inv_pow, power_base_root_pow]
    norm_num
  have h3 : (5/6 : ℝ) ^ (100:ℕ) ≤ 1/50000 := by norm_num
  linarith

theorem augFactor_one_ge : (9 : ℝ) ≤ augFactor 1 := by
  rw [augFactor_eq]
  have hq := decay_one_ge
  have hd : (0:ℝ) < 11/6 := by norm_num
  have h1 : (98/5 : ℝ)/(1 + decay 1) ≤ (98/5)/(11/6) :=
    div_le_div_of_nonneg_left (by norm_num) hd (by linarith)
  norm_num at h1
  linarith

theorem augFactor_lt_ten (n : ℕ) (hn : 1 ≤ n) : augFactor n < 10 := by
  rw [augFactor_eq]
  have hq := decay_lt_one n hn
  have hq0 := decay_pos n
  have h1 : (98/5 : ℝ)/2 < (98/5)/(1 + decay n) :=
    div_lt_div_of_pos_left (by norm_num) (by linarith) (by linarith)
  linarith

theorem augFactor_two_ge : (19/2 : ℝ) ≤ augFactor 2 := by
  rw [augFactor_eq]
  have hq := decay_two_ge
  have hd : (0:ℝ) < 196/103 := by norm_num
  have h1 : (98/5 : ℝ)/(1 + decay 2) ≤ (98/5)/(196/103) :=
    div_le_div_of_nonneg_left (by norm_num) hd (by linarith)
  norm_num at h1
  linarith

theorem augFactor_upper (n : ℕ) : augFactor n ≤ 1/5 + (98/5) * decay n := by
  rw [augFactor_eq]
  have hq := decay_pos n
  have hd : (0:ℝ) < 1 + decay n := by linarith
  have key : 99/5 - (98/5)/(1 + decay n) = 1/5 + (98/5) * (decay n / (1 + decay n)) := by
    field_simp
    ring
  rw [key]
  have h1 : decay n / (1 + decay n) ≤ decay n / 1 :=
    div_le_div_of_nonneg_left (le_of_lt hq) (by norm_num) (by linarith)
  norm_num at h1
  nlinarith

theorem augAmount_one : augmentation_amount 1 = 9 := by
  rw [augmentation_amount]
  have h1 := augFactor_one_ge
  have h2 := augFactor_lt_ten 1 (by omega)
  rw [Int.floor_eq_iff]
  push_cast
  constructor <;> nlinarith

theorem augAmount_two : augmentation_amount 2 = 19 := by
  rw [augmentation_amount]
  have h1 := augFactor_two_ge
  have h2 := augFactor_lt_ten 2 (by omega)
  rw [Int.floor_eq_iff]
  push_cast
  constructor <;> nlinarith

theorem augAmount_2001 : augmentation_amount 2001 = 400 := by
  rw [augmentation_amount]
  have h1 := augFactor_gt 2001
  have h2 := augFactor_upper 2001
  have h3 := decay_2001_le
  have h4 := decay_pos 2001
  rw [Int.floor_eq_iff]
  push_cast
  constructor <;> nlinarith

/--
C4 (counterexample).  The integer-valued ratio
`augmentation_amount(n) / n` is not monotonically non-increasing:
`augmentation_amount(1) = 9` but `augmentation_amount(2) = 19`, so the
ratio rises from 9 to 9.5; and the truncated count falls below
`min_factor * n` at the concrete large input `n = 2001`
(`augmentation_amount(2001) = 400 < 400.2`), violating the claimed
`[min_factor * n, max_factor * n]` membership.
-/
theorem c4_counterexample :
    2 * augmentation_amount 1 < 1 * augmentation_amount 2 ∧
    (augmentation_amount 2001 : ℝ) < (1/5) * 2001 := by
  refine ⟨?_, ?_⟩
  · rw [augAmount_one, augAmount_two]
    norm_num
  · rw [augAmount_2001]
    norm_num

/--
C4 (amended).  The pre-truncation balancing factor
`augmentation_amount(n) / n` (the real-valued `augFactor`) is
monotonically non-increasing as `n` grows and always lies in
`(min_factor, max_factor] = (0.2, 10]`; consequently the returned integer
count lies within `(min_factor * n - 1, max_factor * n]` for all `n`.
-/
theorem c4_amended :
    (∀ m n : ℕ, m ≤ n → augFactor n ≤ augFactor m) ∧
    (∀ n : ℕ, 1/5 < augFactor n ∧ augFactor n ≤ 10) ∧
    (∀ n : ℕ, (augmentation_amount n : ℝ) ≤ 10 * n ∧
      (1/5 : ℝ) * n - 1 < (augmentation_amount n : ℝ)) := by
  refine ⟨augFactor_antitone, fun n => ⟨augFactor_gt n, augFactor_le_ten n⟩, fun n => ⟨?_, ?_⟩⟩
  · have h1 : (augmentation_amount n : ℝ) ≤ augFactor n * n := by
      rw [augmentation_amount]
      exact Int.floor_le _
    have h2 : augFactor n * n ≤ 10 * n := by
      have := augFactor_le_ten n
      have hn : (0:ℝ) ≤ (n:ℝ) := by positivity
      nlinarith
    linarith
  · have h1 : augFactor n * n - 1 < (augmentation_amount n : ℝ) := by
      rw [augmentation_amount]
      exact Int.sub_one_lt_floor _
    have h2 : (1/5 : ℝ) * n ≤ augFactor n * n := by
      have := augFactor_gt n
      have hn : (0:ℝ) ≤ (n:ℝ) := by positivity
      nlinarith
    linarith

/-- Witness for the amended C4: monotonicity applied at `0 ≤ 1`. -/
theorem c4_amended_witness : augFactor 1 ≤ augFactor 0 :=
  c4_amended.1 0 1 (by norm_num)

theorem emit_eq_nil_of_empty_slash (samplesOf : String → List Nat)
    (slash : List Nat) (h : slash.isEmpty) (paths : List SymbolPath) :
    ∀ pos, emit samplesOf slash paths pos = [] := by
  induction paths with
  | nil => intro pos; rfl
  | cons p rest ih => intro pos; simp [emit, h, ih]

theorem zipSlash_eq_nil_iff (slash ss : List Nat) (pos : Nat) :
    zipSlash slash ss pos = [] ↔ ss = [] := by
  cases ss <;> simp [zipSlash]

theorem emit_eq_nil_iff (samplesOf : String → List Nat) (slash : List Nat)
    (paths : List SymbolPath) (pos : Nat) :
    emit samplesOf slash paths pos = [] ↔
      (slash.isEmpty ∨ ∀ p ∈ paths, samplesOf p.1 = []) := by
  by_cases hs : slash.isEmpty
  · simp [emit_eq_nil_of_empty_slash samplesOf slash hs paths pos, hs]
  · induction paths generalizing pos with
    | nil => simp [emit]
    | cons p rest ih =>
      rw [emit_cons samplesOf slash p rest pos hs, List.append_eq_nil,
        List.map_eq_nil, zipSlash_eq_nil_iff,
        ih (pos + (samplesOf p.1).length)]
      simp [hs, List.forall_mem_cons]

/--
C5.  Dataset construction fails with the fatal message
"No samples found for symbol key: <key>" naming a leader whose full
derivation-path expansion yields zero records, and it completes (returns
`ok`) exactly when every leader's expansion contributes at least one
record — no empty or partial class is ever emitted.
-/
theorem c5_empty_leader_fatal (cfg : LoaderConfig) (leaders : List String)
    (pos : Nat) (rng : PyRandom) :
    ((∃ res, buildDataset cfg leaders pos rng = Except.ok res) ↔
      ∀ key ∈ leaders, emit cfg.samplesOf cfg.slash (cfg.pathsOf key) 0 ≠ []) ∧
    ((∃ key ∈ leaders, emit cfg.samplesOf cfg.slash (cfg.pathsOf key) 0 = []) →
      ∃ key ∈ leaders, emit cfg.samplesOf cfg.slash (cfg.pathsOf key) 0 = [] ∧
        buildDataset cfg leaders pos rng = Except.error (noSamplesMsg key)) := by
  induction leaders generalizing pos rng with
  | nil =>
    refine ⟨⟨?_, ?_⟩, ?_⟩
    · intro _ key hk; simp at hk
    · intro _; exact ⟨([], []), rfl⟩
    · rintro ⟨key, hk, _⟩; simp at hk
  | cons key rest ih =>
    have hpos : ∀ pos2, (emit cfg.samplesOf cfg.slash (cfg.pathsOf key) pos2 = [])
        ↔ (emit cfg.samplesOf cfg.slash (cfg.pathsOf key) 0 = []) := by
      intro pos2; rw [emit_eq_nil_iff, emit_eq_nil_iff]
    by_cases hk : emit cfg.samplesOf cfg.slash (cfg.pathsOf key) 0 = []
    · have hkp : emit cfg.samplesOf cfg.slash (cfg.pathsOf key) pos = [] :=
        (hpos pos).mpr hk
      have hb : buildLeader cfg key pos rng = Except.error (noSamplesMsg key) := by
        simp [buildLeader, hkp]
      have hds : buildDataset cfg (key :: rest) pos rng
          = Except.error (noSamplesMsg key) := by
        simp [buildDataset, hb]
      refine ⟨⟨?_, ?_⟩, ?_⟩
      · rintro ⟨res, hres⟩
        rw [hds] at hres
        exact absurd hres (by simp)
      · intro hall
        exact absurd hk (hall key (List.mem_cons_self _ _))
      · intro _
        exact ⟨key, List.mem_cons_self _ _, hk, hds⟩
    · have hkp : ¬ emit cfg.samplesOf cfg.slash (cfg.pathsOf key) pos = [] :=
        fun hcontra => hk ((hpos pos).mp hcontra)
      obtain ⟨res1, hres1⟩ : ∃ r, buildLeader cfg key pos rng = Except.ok r := by
        simp [buildLeader, hkp]
      have hds : buildDataset cfg (key :: rest) pos rng
          = match buildDataset cfg rest
              (pos + emitAdvance cfg.samplesOf (cfg.pathsOf key)) res1.2 with
            | Except.error e => Except.error e
            | Except.ok t =>
                Except.ok (res1.1 ++ t.1, List.replicate res1.1.length key ++ t.2) := by
        simp [buildDataset, hres1]
      obtain ⟨ihA, ihB⟩ := ih (pos + emitAdvance cfg.samplesOf (cfg.pathsOf key)) res1.2
      refine ⟨⟨?_, ?_⟩, ?_⟩
      · rintro ⟨res, hres⟩ key2 hk2
        rcases List.mem_cons.mp hk2 with heq | hk2r
        · rw [heq]; exact hk
        · cases hrec : buildDataset cfg rest
              (pos + emitAdvance cfg.samplesOf (cfg.pathsOf key)) res1.2 with
          | error e =>
            rw [hds, hrec] at hres
            exact absurd hres (by simp)
          | ok t => exact ihA.mp ⟨t, hrec⟩ key2 hk2r
      · intro hall
        obtain ⟨t, ht⟩ := ihA.mpr (fun key2 hk2 => hall key2 (List.mem_cons_of_mem _ hk2))
        exact ⟨_, by rw [hds, ht]⟩
      · rintro ⟨key2, hk2, hke⟩
        rcases List.mem_cons.mp hk2 with heq | hk2r
        · rw [heq] at hke; exact absurd hke hk
        · obtain ⟨key3, hk3, hke3, herr3⟩ := ihB ⟨key2, hk2r, hke⟩
          exact ⟨key3, List.mem_cons_of_mem _ hk3, hke3, by rw [hds, herr3]⟩

/-- Witness for C5: a configuration whose only leader has no samples is
rejected with the fatal message naming that leader. -/
theorem c5_empty_leader_fatal_witness :
    ∃ key ∈ [keyA], emit cfgC5.samplesOf cfgC5.slash (cfgC5.pathsOf key) 0 = [] ∧
      buildDataset cfgC5 [keyA] 0 rngZero = Except.error (noSamplesMsg key) :=
  (c5_empty_leader_fatal cfgC5 [keyA] 0 rngZero).2
    ⟨keyA, List.mem_cons_self _ _, rfl⟩


theorem emit_seed_none (samplesOf : String → List Nat) (slash : List Nat)
    (paths : List SymbolPath) :
    ∀ pos, ∀ r ∈ emit samplesOf slash paths pos, r.seed = none := by
  induction paths with
  | nil => intro pos r hr; simp [emit] at hr
  | cons p rest ih =>
    intro pos r hr
    simp only [emit] at hr
    rcases List.mem_append.mp hr with h1 | h2
    · by_cases hs : slash.isEmpty
      · simp [hs] at h1
      · simp only [hs, Bool.false_eq_true, if_false, List.mem_map] at h1
        obtain ⟨q, hq, hqe⟩ := h1
        rw [← hqe]
    · exact ih _ r h2

theorem augmentStep_fst (samples : List DerivationRecord) (r : PyRandom) :
    ∃ rec, (augmentStep samples r).1 = samples ++ [rec] ∧ rec.seed.isSome :=
  ⟨_, rfl, rfl⟩

theorem augmentLoop_shape (k : Nat) :
    ∀ samples r, ∃ tail, (augmentLoop k samples r).1 = samples ++ tail ∧
      ∀ rec ∈ tail, rec.seed.isSome := by
  induction k with
  | zero => intro samples r; exact ⟨[], by simp [augmentLoop], by simp⟩
  | succ k ih =>
    intro samples r
    obtain ⟨rec, hstep, hseed⟩ := augmentStep_fst samples r
    obtain ⟨tail, h1, h2⟩ := ih (augmentStep samples r).1 (augmentStep samples r).2
    refine ⟨[rec] ++ tail, ?_, ?_⟩
    · simp only [augmentLoop]
      rw [h1, hstep, List.append_assoc]
    · intro rec2 hrec2
      rcases List.mem_append.mp hrec2 with hA | hB
      · rw [List.mem_singleton.mp hA]; exact hseed
      · exact h2 rec2 hB

/--
C6.  For a leader built with a sample cap, the emitted record list is
exactly the first `min(total, cap)` records of the uncapped list in
insertion order; the uncapped list is the path-derived (real/derived,
seedless) records followed by the augmentation (seeded) records, so a
tight cap removes augmentation records before real/derived records.
-/
theorem c6_sample_cap (cfg : LoaderConfig) (key : String) (pos : Nat)
    (rng : PyRandom) (cap : Nat) (out : List DerivationRecord × PyRandom)
    (hlim : cfg.sample_limit = some cap)
    (hok : buildLeader cfg key pos rng = Except.ok out) :
    ∃ augTail,
      out.1 = (emit cfg.samplesOf cfg.slash (cfg.pathsOf key) pos ++ augTail).take cap ∧
      (∀ r ∈ emit cfg.samplesOf cfg.slash (cfg.pathsOf key) pos, r.seed = none) ∧
      (∀ r ∈ augTail, r.seed.isSome) ∧
      out.1.length
        = min cap (emit cfg.samplesOf cfg.slash (cfg.pathsOf key) pos ++ augTail).length ∧
      (cap ≤ (emit cfg.samplesOf cfg.slash (cfg.pathsOf key) pos).length →
        out.1 = (emit cfg.samplesOf cfg.slash (cfg.pathsOf key) pos).take cap) := by
  by_cases hkp : (emit cfg.samplesOf cfg.slash (cfg.pathsOf key) pos).isEmpty
  · simp [buildLeader, hkp] at hok
  · simp only [buildLeader, hkp, Bool.false_eq_true, if_false, hlim] at hok
    cases hra : cfg.random_augmentation with
    | false =>
      rw [hra] at hok
      simp only [Bool.false_eq_true, if_false] at hok
      rw [Except.ok.injEq] at hok
      refine ⟨[], ?_, emit_seed_none cfg.samplesOf cfg.slash (cfg.pathsOf key) pos, ?_, ?_, ?_⟩
      · rw [← hok, List.append_nil]
      · intro rec hrec; simp at hrec
      · rw [← hok, List.append_nil, List.length_take]
      · intro _; rw [← hok]
    | true =>
      rw [hra] at hok
      simp only [if_true] at hok
      rw [Except.ok.injEq] at hok
      obtain ⟨tail, h1, h2⟩ := augmentLoop_shape
        (cfg.amountFn (((cfg.ancestorsOf key).map (fun a => (cfg.samplesOf a).length)).sum))
        (emit cfg.samplesOf cfg.slash (cfg.pathsOf key) pos) rng
      refine ⟨tail, ?_, emit_seed_none cfg.samplesOf cfg.slash (cfg.pathsOf key) pos, h2, ?_, ?_⟩
      · rw [← hok, h1]
      · rw [← hok, h1, List.length_take]
      · intro hle
        rw [← hok, h1, List.take_append_of_le_length hle]

/-- Witness for C6: with one real sample, augmentation count 2 and cap 2,
the capped list keeps the real record and the first augmentation
record. -/
theorem c6_sample_cap_witness :
    ∃ augTail,
      (buildLeaderC6.1 : List DerivationRecord)
          = (emit cfgC6.samplesOf cfgC6.slash (cfgC6.pathsOf keyA) 0 ++ augTail).take 2 ∧
      (∀ r ∈ emit cfgC6.samplesOf cfgC6.slash (cfgC6.pathsOf keyA) 0, r.seed = none) ∧
      (∀ r ∈ augTail, r.seed.isSome) ∧
      buildLeaderC6.1.length
        = min 2 (emit cfgC6.samplesOf cfgC6.slash (cfgC6.pathsOf keyA) 0 ++ augTail).length ∧
      (2 ≤ (emit cfgC6.samplesOf cfgC6.slash (cfgC6.pathsOf keyA) 0).length →
        buildLeaderC6.1 = (emit cfgC6.samplesOf cfgC6.slash (cfgC6.pathsOf keyA) 0).take 2) :=
  c6_sample_cap cfgC6 keyA 0 rngZero 2 buildLeaderC6 rfl (by rfl)


theorem idxOf_cons_self (s : String) (t : List String) : idxOf s (s :: t) = 0 := by
  simp [idxOf]

theorem idxOf_append_of_not_mem (s : String) (l1 l2 : List String) (h : s ∉ l1) :
    idxOf s (l1 ++ l2) = l1.length + idxOf s l2 := by
  induction l1 with
  | nil => simp
  | cons k rest ih =>
    have hks : ¬ k = s := fun he => h (by rw [he]; exact List.mem_cons_self s rest)
    have hrest := ih (fun hm => h (List.mem_cons_of_mem _ hm))
    rw [List.cons_append, idxOf, if_neg hks, hrest, List.length_cons]
    omega

theorem idxOf_append_of_mem (s : String) (l1 l2 : List String) (h : s ∈ l1) :
    idxOf s (l1 ++ l2) = idxOf s l1 := by
  induction l1 with
  | nil => simp at h
  | cons k rest ih =>
    by_cases hks : k = s
    · simp [idxOf, hks]
    · have hm : s ∈ rest := by
        rcases List.mem_cons.mp h with he | hm
        · exact absurd he.symm hks
        · exact hm
      simp [idxOf, hks, ih hm]

theorem idxOf_lt_length (s : String) (l : List String) (h : s ∈ l) :
    idxOf s l < l.length := by
  induction l with
  | nil => simp at h
  | cons k rest ih =>
    by_cases hks : k = s
    · simp [idxOf, hks]
    · have hm : s ∈ rest := by
        rcases List.mem_cons.mp h with he | hm
        · exact absurd he.symm hks
        · exact hm
      simp only [idxOf, hks, if_false, List.length_cons]
      have := ih hm
      omega

theorem getD_mem (l : List String) (i : Nat) (d : String) (h : i < l.length) :
    l.getD i d ∈ l := by
  induction l generalizing i with
  | nil => simp at h
  | cons k rest ih =>
    cases i with
    | zero => simp
    | succ j =>
      have hj : j < rest.length := by simpa using h
      simp only [List.getD_cons_succ]
      exact List.mem_cons_of_mem _ (ih j hj)

theorem getD_replicate (n : Nat) (k : String) (i : Nat) (d : String) (h : i < n) :
    (List.replicate n k).getD i d = k := by
  induction n generalizing i with
  | zero => omega
  | succ m ih =>
    cases i with
    | zero => simp [List.replicate_succ]
    | succ j =>
      rw [List.replicate_succ]
      simp only [List.getD_cons_succ]
      exact ih j (by omega)

theorem mem_grouped (ks l : List String) (h : Grouped ks l) :
    ∀ x ∈ l, x ∈ ks := by
  induction h with
  | nil => simp
  | cons k n ks t hg ih =>
    intro x hx
    rcases List.mem_append.mp hx with hB | hT
    · rw [List.eq_of_mem_replicate hB]
      exact List.mem_cons_self _ _
    · exact List.mem_cons_of_mem _ (ih x hT)

theorem buildDataset_shape (cfg : LoaderConfig) (leaders : List String) :
    ∀ pos rng pks sks, buildDataset cfg leaders pos rng = Except.ok (pks, sks) →
      pks.length = sks.length ∧ Grouped leaders sks := by
  induction leaders with
  | nil =>
    intro pos rng pks sks h
    simp only [buildDataset, Except.ok.injEq, Prod.mk.injEq] at h
    obtain ⟨h1, h2⟩ := h
    rw [← h1, ← h2]
    exact ⟨rfl, Grouped.nil⟩
  | cons key rest ih =>
    intro pos rng pks sks h
    simp only [buildDataset] at h
    cases hb : buildLeader cfg key pos rng with
    | error e =>
      simp only [hb] at h
      exact Except.noConfusion h
    | ok s1 =>
      simp only [hb] at h
      cases hr : buildDataset cfg rest
          (pos + emitAdvance cfg.samplesOf (cfg.pathsOf key)) s1.2 with
      | error e =>
        simp only [hr] at h
        exact Except.noConfusion h
      | ok t2 =>
        simp only [hr, Except.ok.injEq, Prod.mk.injEq] at h
        obtain ⟨h1, h2⟩ := h
        obtain ⟨hl, hgr⟩ := ih _ _ t2.1 t2.2 (by rw [hr])
        rw [← h1, ← h2]
        refine ⟨?_, Grouped.cons key s1.1.length rest t2.2 hgr⟩
        simp [List.length_append, List.length_replicate, hl]

theorem grouped_range (ks l : List String) (h : Grouped ks l) :
    ks.Nodup → ∀ s ∈ l, ∀ i : Nat,
      (idxOf s l ≤ i ∧ i < l.length - idxOf s l.reverse) ↔
        (i < l.length ∧ l.getD i emptyKey = s) := by
  induction h with
  | nil => intro _ s hs; simp at hs
  | cons k n ks t hg ih =>
    intro hnd s hs i
    have hknotks : k ∉ ks := (List.nodup_cons.mp hnd).1
    have hndks : ks.Nodup := (List.nodup_cons.mp hnd).2
    have hrev : (List.replicate n k ++ t).reverse = t.reverse ++ List.replicate n k := by
      rw [List.reverse_append, List.reverse_replicate]
    have hlen : (List.replicate n k ++ t).length = n + t.length := by
      simp [List.length_append, List.length_replicate]
    by_cases hsk : s = k
    · subst hsk
      have hsnott : s ∉ t := fun hm => hknotks (mem_grouped ks t hg s hm)
      have hsB : s ∈ List.replicate n s := by
        rcases List.mem_append.mp hs with hB | hT
        · exact hB
        · exact absurd hT hsnott
      have hn : 1 ≤ n := by
        rcases List.mem_replicate.mp hsB with ⟨hne, -⟩
        omega
      have hidx : idxOf s (List.replicate n s ++ t) = 0 := by
        cases n with
        | zero => omega
        | succ m => rw [List.replicate_succ, List.cons_append, idxOf_cons_self]
      have hidxrev : idxOf s (List.replicate n s ++ t).reverse = t.length := by
        rw [hrev, idxOf_append_of_not_mem s t.reverse _
          (fun hm => hsnott (List.mem_reverse.mp hm))]
        cases n with
        | zero => omega
        | succ m =>
          rw [List.replicate_succ, idxOf_cons_self]
          simp [List.length_reverse]
      rw [hidx, hidxrev, hlen]
      constructor
      · rintro ⟨-, hlt⟩
        have hin : i < n := by omega
        have hinB : i < (List.replicate n s).length := by
          simpa [List.length_replicate] using hin
        refine ⟨by omega, ?_⟩
        rw [List.getD_append _ t emptyKey i hinB]
        exact getD_replicate n s i emptyKey hin
      · rintro ⟨hilen, hget⟩
        by_cases hin : i < n
        · exact ⟨Nat.zero_le i, by omega⟩
        · exfalso
          push_neg at hin
          have hinB : (List.replicate n s).length ≤ i := by
            simpa [List.length_replicate] using hin
          rw [List.getD_append_right _ t emptyKey i hinB] at hget
          have hit : i - (List.replicate n s).length < t.length := by
            simp only [List.length_replicate]
            omega
          exact hsnott (by rw [← hget]; exact getD_mem t _ emptyKey hit)
    · have hsnotB : s ∉ List.replicate n k :=
        fun hm => hsk (List.eq_of_mem_replicate hm)
      have hst : s ∈ t := by
        rcases List.mem_append.mp hs with hB | hT
        · exact absurd hB hsnotB
        · exact hT
      have hidx : idxOf s (List.replicate n k ++ t) = n + idxOf s t := by
        rw [idxOf_append_of_not_mem s _ t hsnotB, List.length_replicate]
      have hsrev : s ∈ t.reverse := List.mem_reverse.mpr hst
      have hidxrev : idxOf s (List.replicate n k ++ t).reverse = idxOf s t.reverse := by
        rw [hrev, idxOf_append_of_mem s t.reverse _ hsrev]
      have hrevlt : idxOf s t.reverse < t.length := by
        have := idxOf_lt_length s t.reverse hsrev
        simpa [List.length_reverse] using this
      rw [hidx, hidxrev, hlen]
      have iht := ih hndks s hst
      constructor
      · rintro ⟨hge, hlt⟩
        have hni : n ≤ i := by omega
        obtain ⟨hilen, hget⟩ := (iht (i - n)).mp ⟨by omega, by omega⟩
        have hinB : (List.replicate n k).length ≤ i := by
          simpa [List.length_replicate] using hni
        refine ⟨by omega, ?_⟩
        rw [List.getD_append_right _ t emptyKey i hinB]
        simpa [List.length_replicate] using hget
      · rintro ⟨hilen, hget⟩
        by_cases hin : i < n
        · exfalso
          have hinB : i < (List.replicate n k).length := by
            simpa [List.length_replicate] using hin
          rw [List.getD_append _ t emptyKey i hinB,
            getD_replicate n k i emptyKey hin] at hget
          exact hsk hget.symm
        · push_neg at hin
          have hinB : (List.replicate n k).length ≤ i := by
            simpa [List.length_replicate] using hin
          rw [List.getD_append_right _ t emptyKey i hinB] at hget
          have hget2 : t.getD (i - n) emptyKey = s := by
            simpa [List.length_replicate] using hget
          obtain ⟨h1, h2⟩ := (iht (i - n)).mpr ⟨by omega, hget2⟩
          exact ⟨by omega, by omega⟩

/--
C10.  After a successful dataset construction, `primary_keys`,
`symbol_keys` and `encoded_labels` have equal length; the records of each
leader occupy one contiguous block in leader iteration order; and
`range_for_symbol s` is exactly the set of indices whose label is `s`,
for every symbol `s` present in the dataset.
-/
theorem c10_contiguous_blocks (cfg : LoaderConfig) (leaders : List String)
    (pos : Nat) (rng : PyRandom) (pks : List DerivationRecord)
    (sks : List String) (encode : String → Nat)
    (hnd : leaders.Nodup)
    (hok : buildDataset cfg leaders pos rng = Except.ok (pks, sks)) :
    pks.length = sks.length ∧
    (sks.map encode).length = sks.length ∧
    ∀ s ∈ sks, ∀ i : Nat,
      ((range_for_symbol sks s).1 ≤ i ∧ i < (range_for_symbol sks s).2) ↔
        (i < sks.length ∧ sks.getD i emptyKey = s) := by
  obtain ⟨hlen, hg⟩ := buildDataset_shape cfg leaders pos rng pks sks hok
  refine ⟨hlen, List.length_map sks encode, ?_⟩
  intro s hs i
  have hrange := grouped_range leaders sks hg hnd s hs i
  simpa [range_for_symbol] using hrange

/-- Witness for C10 at the concrete single-leader configuration. -/
theorem c10_contiguous_blocks_witness :
    buildLeaderC6.1.length = (List.replicate 2 keyA).length ∧
    ((List.replicate 2 keyA).map String.length).length
      = (List.replicate 2 keyA).length ∧
    ∀ s ∈ List.replicate 2 keyA, ∀ i : Nat,
      ((range_for_symbol (List.replicate 2 keyA) s).1 ≤ i ∧
        i < (range_for_symbol (List.replicate 2 keyA) s).2) ↔
        (i < (List.replicate 2 keyA).length ∧
          (List.replicate 2 keyA).getD i emptyKey = s) :=
  c10_contiguous_blocks cfgC6 [keyA] 0 rngZero buildLeaderC6.1
    (List.replicate 2 keyA) String.length (by simp) (by rfl)


theorem load_attrs_untouched {α : Type} (type_info : List (String × (α → Option α)))
    (data : String → Option α) (skip_attrs : List String) :
    ∀ obj attrName, attrName ∉ type_info.map Prod.fst →
      (load_dict_to_attrs_safely obj type_info data skip_attrs).1 attrName
        = obj attrName := by
  induction type_info with
  | nil => intro obj a h; rfl
  | cons p rest ih =>
    obtain ⟨a0, c0⟩ := p
    intro obj a h
    have ha0 : ¬ a = a0 :=
      fun he => h (by rw [List.map_cons, he]; exact List.mem_cons_self _ _)
    have har : a ∉ rest.map Prod.fst :=
      fun hm => h (by rw [List.map_cons]; exact List.mem_cons_of_mem _ hm)
    rw [load_dict_to_attrs_safely]
    by_cases hskip : skip_attrs.contains a0
    · rw [if_pos hskip]; exact ih obj a har
    · rw [if_neg hskip]
      cases hdat : data a0 with
      | none =>
        dsimp only
        exact ih obj a har
      | some v =>
        dsimp only
        cases hco : c0 v with
        | some v2 =>
          dsimp only
          rw [ih _ a har]
          rw [if_neg ha0]
        | none =>
          dsimp only
          exact ih obj a har

/--
C9.  For every attribute whose coercion fails, the object keeps its
previous value at that attribute; a recoverable exception is recorded and
processing continues with the remaining attributes (an attribute whose
coercion succeeds is set regardless of other failures); and the returned
exception list is empty if and only if every present, non-skipped
attribute coerced successfully.  The embedding is a total function, so
the loader itself never raises.
-/
theorem c9_safe_attr_loading {α : Type} (obj : String → α)
    (type_info : List (String × (α → Option α)))
    (data : String → Option α) (skip_attrs : List String)
    (hnd : (type_info.map Prod.fst).Nodup) :
    (∀ attrName coerce v, (attrName, coerce) ∈ type_info →
      ¬ skip_attrs.contains attrName → data attrName = some v → coerce v = none →
      (load_dict_to_attrs_safely obj type_info data skip_attrs).1 attrName
        = obj attrName) ∧
    (∀ attrName coerce v v2, (attrName, coerce) ∈ type_info →
      ¬ skip_attrs.contains attrName → data attrName = some v → coerce v = some v2 →
      (load_dict_to_attrs_safely obj type_info data skip_attrs).1 attrName = v2) ∧
    ((load_dict_to_attrs_safely obj type_info data skip_attrs).2 = [] ↔
      ∀ attrName coerce v, (attrName, coerce) ∈ type_info →
        ¬ skip_attrs.contains attrName → data attrName = some v →
        (coerce v).isSome) := by
  revert hnd
  induction type_info generalizing obj with
  | nil =>
    intro hnd
    refine ⟨?_, ?_, ?_⟩
    · intro a c v hmem; simp at hmem
    · intro a c v v2 hmem; simp at hmem
    · simp [load_dict_to_attrs_safely]
  | cons p rest ih =>
    intro hnd
    obtain ⟨a0, c0⟩ := p
    rw [List.map_cons, List.nodup_cons] at hnd
    have ha0r : a0 ∉ rest.map Prod.fst := hnd.1
    have hndr : (rest.map Prod.fst).Nodup := hnd.2
    by_cases hskip : skip_attrs.contains a0
    · have heq : load_dict_to_attrs_safely obj ((a0, c0) :: rest) data skip_attrs
          = load_dict_to_attrs_safely obj rest data skip_attrs := by
        rw [load_dict_to_attrs_safely, if_pos hskip]
      obtain ⟨IH1, IH2, IH3⟩ := ih obj hndr
      rw [heq]
      refine ⟨?_, ?_, ?_⟩
      · intro a c v hmem hskipA hdata hco
        rcases List.mem_cons.mp hmem with hhead | hrest
        · rw [Prod.mk.injEq] at hhead
          exact absurd (hhead.1 ▸ hskip) hskipA
        · exact IH1 a c v hrest hskipA hdata hco
      · intro a c v v2 hmem hskipA hdata hco
        rcases List.mem_cons.mp hmem with hhead | hrest
        · rw [Prod.mk.injEq] at hhead
          exact absurd (hhead.1 ▸ hskip) hskipA
        · exact IH2 a c v v2 hrest hskipA hdata hco
      · rw [IH3]
        constructor
        · intro hall a c v hmem hskipA hdata
          rcases List.mem_cons.mp hmem with hhead | hrest
          · rw [Prod.mk.injEq] at hhead
            exact absurd (hhead.1 ▸ hskip) hskipA
          · exact hall a c v hrest hskipA hdata
        · intro hall a c v hmem hskipA hdata
          exact hall a c v (List.mem_cons_of_mem _ hmem) hskipA hdata
    · cases hdat0 : data a0 with
      | none =>
        have heq : load_dict_to_attrs_safely obj ((a0, c0) :: rest) data skip_attrs
            = load_dict_to_attrs_safely obj rest data skip_attrs := by
          rw [load_dict_to_attrs_safely, if_neg hskip, hdat0]
        obtain ⟨IH1, IH2, IH3⟩ := ih obj hndr
        rw [heq]
        refine ⟨?_, ?_, ?_⟩
        · intro a c v hmem hskipA hdata hco
          rcases List.mem_cons.mp hmem with hhead | hrest
          · rw [Prod.mk.injEq] at hhead
            rw [hhead.1, hdat0] at hdata
            exact Option.noConfusion hdata
          · exact IH1 a c v hrest hskipA hdata hco
        · intro a c v v2 hmem hskipA hdata hco
          rcases List.mem_cons.mp hmem with hhead | hrest
          · rw [Prod.mk.injEq] at hhead
            rw [hhead.1, hdat0] at hdata
            exact Option.noConfusion hdata
          · exact IH2 a c v v2 hrest hskipA hdata hco
        · rw [IH3]
          constructor
          · intro hall a c v hmem hskipA hdata
            rcases List.mem_cons.mp hmem with hhead | hrest
            · rw [Prod.mk.injEq] at hhead
              rw [hhead.1, hdat0] at hdata
              exact Option.noConfusion hdata
            · exact hall a c v hrest hskipA hdata
          · intro hall a c v hmem hskipA hdata
            exact hall a c v (List.mem_cons_of_mem _ hmem) hskipA hdata
      | some v0 =>
        cases hco0 : c0 v0 with
        | some v2p =>
          have heq : load_dict_to_attrs_safely obj ((a0, c0) :: rest) data skip_attrs
              = load_dict_to_attrs_safely
                  (fun k => if k = a0 then v2p else obj k) rest data skip_attrs := by
            rw [load_dict_to_attrs_safely, if_neg hskip, hdat0]
            dsimp only
            rw [hco0]
          obtain ⟨IH1, IH2, IH3⟩ :=
            ih (fun k => if k = a0 then v2p else obj k) hndr
          rw [heq]
          refine ⟨?_, ?_, ?_⟩
          · intro a c v hmem hskipA hdata hco
            rcases List.mem_cons.mp hmem with hhead | hrest
            · rw [Prod.mk.injEq] at hhead
              rw [hhead.1, hdat0, Option.some.injEq] at hdata
              rw [hhead.2, ← hdata] at hco
              rw [hco] at hco0
              exact Option.noConfusion hco0
            · have hane : ¬ a = a0 := by
                intro he
                exact ha0r (he ▸ List.mem_map_of_mem Prod.fst hrest)
              rw [IH1 a c v hrest hskipA hdata hco]
              rw [if_neg hane]
          · intro a c v v2 hmem hskipA hdata hco
            rcases List.mem_cons.mp hmem with hhead | hrest
            · rw [Prod.mk.injEq] at hhead
              rw [hhead.1, hdat0, Option.some.injEq] at hdata
              rw [hhead.2, ← hdata, hco0, Option.some.injEq] at hco
              rw [hhead.1, load_attrs_untouched rest data skip_attrs _ a0 ha0r]
              rw [if_pos rfl]
              exact hco
            · exact IH2 a c v v2 hrest hskipA hdata hco
          · rw [IH3]
            constructor
            · intro hall a c v hmem hskipA hdata
              rcases List.mem_cons.mp hmem with hhead | hrest
              · rw [Prod.mk.injEq] at hhead
                rw [hhead.1, hdat0, Option.some.injEq] at hdata
                rw [hhead.2, ← hdata, hco0]
                rfl
              · exact hall a c v hrest hskipA hdata
            · intro hall a c v hmem hskipA hdata
              exact hall a c v (List.mem_cons_of_mem _ hmem) hskipA hdata
        | none =>
          have heq : load_dict_to_attrs_safely obj ((a0, c0) :: rest) data skip_attrs
              = ((load_dict_to_attrs_safely obj rest data skip_attrs).1,
                  castFailMsg a0
                    :: (load_dict_to_attrs_safely obj rest data skip_attrs).2) := by
            rw [load_dict_to_attrs_safely, if_neg hskip, hdat0]
            dsimp only
            rw [hco0]
          obtain ⟨IH1, IH2, IH3⟩ := ih obj hndr
          rw [heq]
          refine ⟨?_, ?_, ?_⟩
          · intro a c v hmem hskipA hdata hco
            rcases List.mem_cons.mp hmem with hhead | hrest
            · rw [Prod.mk.injEq] at hhead
              rw [hhead.1]
              exact load_attrs_untouched rest data skip_attrs obj a0 ha0r
            · exact IH1 a c v hrest hskipA hdata hco
          · intro a c v v2 hmem hskipA hdata hco
            rcases List.mem_cons.mp hmem with hhead | hrest
            · rw [Prod.mk.injEq] at hhead
              rw [hhead.1, hdat0, Option.some.injEq] at hdata
              rw [hhead.2, ← hdata, hco0] at hco
              exact Option.noConfusion hco
            · exact IH2 a c v v2 hrest hskipA hdata hco
          · constructor
            · intro hfalse
              exact List.noConfusion hfalse
            · intro hall
              exfalso
              have hhd := hall a0 c0 v0 (List.mem_cons_self _ _) hskip hdat0
              rw [hco0] at hhd
              exact Bool.noConfusion hhd

/-- Witness for C9: a failing coercion leaves the attribute at its
previous value. -/
theorem c9_safe_attr_loading_witness :
    (load_dict_to_attrs_safely (fun _ => (0 : Nat)) [(attrA, coerceFailC9)]
        (fun _ => some 5) []).1 attrA = 0 :=
  (c9_safe_attr_loading (fun _ => (0 : Nat)) [(attrA, coerceFailC9)]
      (fun _ => some 5) [] (by simp)).1 attrA coerceFailC9 5
    (List.mem_cons_self _ _) (by simp) rfl rfl


theorem pairwiseB_iff {α : Type} (r : α → α → Bool) (l : List α) :
    pairwiseB r l = true ↔ List.Pairwise (fun a b => r a b = true) l := by
  induction l with
  | nil => simp [pairwiseB]
  | cons x xs ih =>
    simp [pairwiseB, List.all_eq_true, ih, List.pairwise_cons]

theorem pairwise_iff_pointwise {α : Type} {R S : α → α → Prop} (l : List α)
    (h : ∀ a b, R a b ↔ S a b) : List.Pairwise R l ↔ List.Pairwise S l :=
  ⟨fun hp => hp.imp (fun hab => (h _ _).mp hab),
   fun hp => hp.imp (fun hab => (h _ _).mpr hab)⟩

theorem pairwise_and {α : Type} {R S : α → α → Prop} (l : List α) :
    List.Pairwise (fun a b => R a b ∧ S a b) l ↔
      (List.Pairwise R l ∧ List.Pairwise S l) := by
  induction l with
  | nil => simp
  | cons x xs ih =>
    simp only [List.pairwise_cons, ih]
    constructor
    · rintro ⟨hx, hR, hS⟩
      exact ⟨⟨fun b hb => (hx b hb).1, hR⟩, fun b hb => (hx b hb).2, hS⟩
    · rintro ⟨⟨hxR, hR⟩, hxS, hS⟩
      exact ⟨fun b hb => ⟨hxR b hb, hxS b hb⟩, hR, hS⟩

theorem not_bool_iff (b : Bool) (P : Prop) (h : b = true ↔ P) :
    ((!b) = true) ↔ ¬ P := by
  cases b <;> simp_all

theorem and_not_bool_iff (x y : Bool) (P Q : Prop)
    (hx : x = true ↔ P) (hy : y = true ↔ Q) :
    (((!x) && (!y)) = true) ↔ (¬ P ∧ ¬ Q) := by
  cases x <;> cases y <;> simp_all

theorem subsetB_iff (a b : List String) :
    subsetB a b = true ↔ ∀ x ∈ a, x ∈ b := by
  simp [subsetB]

theorem setEqB_iff (a b : List String) :
    setEqB a b = true ↔ ((∀ x ∈ a, x ∈ b) ∧ (∀ x ∈ b, x ∈ a)) := by
  simp [setEqB, subsetB]

theorem disjB_iff (a b : List String) :
    disjB a b = true ↔ ∀ x ∈ a, x ∉ b := by
  simp [disjB]

theorem lineNodupB_iff (l : List String) : lineNodupB l = true ↔ l.Nodup := by
  rw [lineNodupB, pairwiseB_iff]
  exact pairwise_iff_pointwise l (fun a b => by simp)

theorem fileLineChecks_iff (f : List (List String)) :
    fileLineChecks f = true ↔
      ((∀ line ∈ f, line.Nodup) ∧
        List.Pairwise (fun a b =>
          ¬ ((∀ x ∈ a, x ∈ b) ∧ (∀ x ∈ b, x ∈ a)) ∧
          ¬ (∀ x ∈ a, x ∈ b) ∧ ¬ (∀ x ∈ b, x ∈ a)) f ∧
        List.Pairwise (fun a b => ∀ x ∈ a, x ∉ b) f) := by
  unfold fileLineChecks
  simp only [Bool.and_eq_true]
  rw [List.all_eq_true, pairwiseB_iff, pairwiseB_iff, pairwiseB_iff]
  have e1 : (∀ line ∈ f, lineNodupB line = true) ↔ (∀ line ∈ f, line.Nodup) := by
    constructor
    · intro h line hl; exact (lineNodupB_iff line).mp (h line hl)
    · intro h line hl; exact (lineNodupB_iff line).mpr (h line hl)
  have e2 : List.Pairwise (fun a b => (!(setEqB a b)) = true) f
      ↔ List.Pairwise (fun a b : List String =>
          ¬ ((∀ x ∈ a, x ∈ b) ∧ (∀ x ∈ b, x ∈ a))) f :=
    pairwise_iff_pointwise f (fun a b => not_bool_iff _ _ (setEqB_iff a b))
  have e3 : List.Pairwise (fun a b => ((!(subsetB a b)) && (!(subsetB b a))) = true) f
      ↔ List.Pairwise (fun a b : List String =>
          ¬ (∀ x ∈ a, x ∈ b) ∧ ¬ (∀ x ∈ b, x ∈ a)) f :=
    pairwise_iff_pointwise f (fun a b =>
      and_not_bool_iff _ _ _ _ (subsetB_iff a b) (subsetB_iff b a))
  have e4 : List.Pairwise (fun a b => (disjB a b && disjB b a) = true) f
      ↔ List.Pairwise (fun a b : List String => ∀ x ∈ a, x ∉ b) f :=
    pairwise_iff_pointwise f (fun a b => by
      rw [Bool.and_eq_true, disjB_iff, disjB_iff]
      constructor
      · exact And.left
      · intro h; exact ⟨h, fun x hxb hxa => h x hxa hxb⟩)
  have e23 : List.Pairwise (fun a b : List String =>
        ¬ ((∀ x ∈ a, x ∈ b) ∧ (∀ x ∈ b, x ∈ a)) ∧
        ¬ (∀ x ∈ a, x ∈ b) ∧ ¬ (∀ x ∈ b, x ∈ a)) f ↔
      (List.Pairwise (fun a b : List String =>
        ¬ ((∀ x ∈ a, x ∈ b) ∧ (∀ x ∈ b, x ∈ a))) f ∧
       List.Pairwise (fun a b : List String =>
        ¬ (∀ x ∈ a, x ∈ b) ∧ ¬ (∀ x ∈ b, x ∈ a)) f) :=
    pairwise_and f
  rw [e1, e2, e3, e4, e23]
  tauto

theorem removeKeySet_cons (k : String) (ks keys : List String) :
    removeKeySet (k :: ks) keys = removeKeySet ks (keys.erase k) := rfl

theorem removeKeySet_self (l : List String) : removeKeySet l l = [] := by
  induction l with
  | nil => rfl
  | cons k rest ih =>
    rw [removeKeySet_cons, List.erase_cons_head]
    exact ih

theorem count_removeKeySet_ge (keySet : List String) :
    ∀ keys x, keys.count x ≤ (removeKeySet keySet keys).count x + keySet.count x := by
  induction keySet with
  | nil => intro keys x; simp [removeKeySet]
  | cons k ks ih =>
    intro keys x
    rw [removeKeySet_cons]
    have h1 := ih (keys.erase k) x
    by_cases hkx : k = x
    · subst hkx
      have h2 : (keys.erase k).count k = keys.count k - 1 :=
        List.count_erase_self k keys
      have h3 : (k :: ks).count k = ks.count k + 1 := List.count_cons_self k ks
      omega
    · have h2 : (keys.erase k).count x = keys.count x :=
        List.count_erase_of_ne (fun he => hkx he.symm) keys
      have h3 : (k :: ks).count x = ks.count x :=
        List.count_cons_of_ne (fun he => hkx he.symm) ks
      omega

theorem fileKeyCheck_iff (lines : List (List String)) :
    fileKeyCheck lines = true ↔ (flatKeys lines).Nodup := by
  unfold fileKeyCheck
  constructor
  · intro h
    rw [List.isEmpty_iff] at h
    rw [List.nodup_iff_count_le_one]
    intro x
    have hge := count_removeKeySet_ge (flatKeys lines).dedup (flatKeys lines) x
    rw [h] at hge
    simp only [List.count_nil] at hge
    by_cases hx : x ∈ flatKeys lines
    · have hd : (flatKeys lines).dedup.count x = 1 :=
        List.count_eq_one_of_mem (List.nodup_dedup _) (List.mem_dedup.mpr hx)
      omega
    · have hz : (flatKeys lines).count x = 0 :=
        List.count_eq_zero_of_not_mem hx
      omega
  · intro h
    rw [List.dedup_eq_self.mpr h, removeKeySet_self]
    rfl

theorem globalKeyCheck_acc (files : List (List (List String))) :
    ∀ acc, (globalKeyCheck files acc = true ↔
      ((∀ f ∈ files, ∀ k ∈ flatKeys f, k ∉ acc) ∧
        List.Pairwise (fun f g => ∀ k ∈ flatKeys f, k ∉ flatKeys g) files)) := by
  induction files with
  | nil => intro acc; simp [globalKeyCheck]
  | cons f rest ih =>
    intro acc
    rw [globalKeyCheck, Bool.and_eq_true, ih (acc ++ (flatKeys f).dedup)]
    have hhead : ((flatKeys f).dedup.all (fun k => !(acc.contains k)) = true)
        ↔ ∀ k ∈ flatKeys f, k ∉ acc := by
      simp [List.all_eq_true, List.mem_dedup]
    rw [hhead, List.pairwise_cons]
    constructor
    · rintro ⟨h1, h2, h3⟩
      refine ⟨?_, ?_, h3⟩
      · intro f2 hf2 k hk
        rcases List.mem_cons.mp hf2 with heq | hf2r
        · rw [heq] at hk
          exact h1 k hk
        · exact fun hacc => (h2 f2 hf2r k hk) (List.mem_append_left _ hacc)
      · intro g hg k hkf hkg
        exact (h2 g hg k hkg)
          (List.mem_append_right _ (List.mem_dedup.mpr hkf))
    · rintro ⟨h1, h2, h3⟩
      refine ⟨fun k hk => h1 f (List.mem_cons_self _ _) k hk, ?_, h3⟩
      intro f2 hf2 k hk hmem
      rcases List.mem_append.mp hmem with hacc | hded
      · exact h1 f2 (List.mem_cons_of_mem _ hf2) k hk hacc
      · exact (h2 f2 hf2 k (List.mem_dedup.mp hded)) hk

/--
C8.  The similarity-metadata sanity check accepts the declared similarity
files (each given as its whitespace-split lines) if and only if: no
symbol is listed twice within one group line, no two lines of a file are
identical as sets or subsets of each other, no two lines within a file
share any symbol, no key occurs twice within one file, and no key
appears in two different files.
-/
theorem c8_similarity_sanity (files : List (List (List String))) :
    test_similar_lists_disjunct files = true ↔ SimilarityFilesValid files := by
  unfold test_similar_lists_disjunct SimilarityFilesValid
  simp only [Bool.and_eq_true, List.all_eq_true]
  rw [globalKeyCheck_acc files []]
  constructor
  · rintro ⟨⟨hA, hB⟩, -, hPair⟩
    refine ⟨?_, ?_, ?_, ?_, hPair⟩
    · intro f hf line hline
      exact ((fileLineChecks_iff f).mp (hA f hf)).1 line hline
    · intro f hf
      exact ((fileLineChecks_iff f).mp (hA f hf)).2.1
    · intro f hf
      exact ((fileLineChecks_iff f).mp (hA f hf)).2.2
    · intro f hf
      exact (fileKeyCheck_iff f).mp (hB f hf)
  · rintro ⟨h1, h2, h3, h4, h5⟩
    refine ⟨⟨?_, ?_⟩, ?_, h5⟩
    · intro f hf
      exact (fileLineChecks_iff f).mpr ⟨h1 f hf, h2 f hf, h3 f hf⟩
    · intro f hf
      exact (fileKeyCheck_iff f).mpr (h4 f hf)
    · intro f hf k hk
      exact List.not_mem_nil k

end HandTex
